import Mathlib

/-!
Verification of the GerakAI PDF extractor (src/file_extraction.py).

The Python source is shallowly embedded below.  External collaborators
(pdf2image, pytesseract via ProcessPoolExecutor, boto3/S3, rapidfuzz, the
json module and the tempfile module) are modelled at their interfaces: the
outcomes a single pipeline run observes from them are collected in an
environment record, and the fuzzy scorer is an abstract function parameter.
Everything the repository code itself does — branching, status writes,
dictionary updates, key derivation, cleanup — is embedded faithfully.
-/

namespace FileExtraction

/-- Status values stored in the in-memory status store file_status
(src/file_extraction.py line 47): "processing" or "done" or "failed". -/
inductive FileStatus where
  | processing
  | done
  | failed
deriving DecidableEq, Repr

/-- Exceptions the first try-block of process_pdf_multiprocess distinguishes
(lines 98-109): PDFInfoNotInstalledError, PDFPageCountError, and the catch-all
Exception branch (which also receives OCR worker failures re-raised by
executor.map). -/
inductive PdfError where
  | pdfInfoNotInstalled
  | pdfPageCount
  | otherException
deriving DecidableEq, Repr

/-- Python dict assignment d[k] = v: when the key is already present its value
is updated in place (the key keeps its position), otherwise the new binding is
appended at the end — CPython insertion-order semantics, which is what
extracted[keyword] = line.strip() relies on at line 68. -/
def dictInsert (d : List (String × String)) (k v : String) : List (String × String) :=
  if d.any (fun p => p.1 == k) then
    d.map (fun p => if p.1 == k then (k, v) else p)
  else
    d ++ [(k, v)]

/-- Python str.lower (per-character lowercasing; the inputs at hand are
ASCII). -/
def pyLower (s : String) : String :=
  ⟨s.data.map Char.toLower⟩

/-- Python str.strip with no argument: remove leading and trailing
whitespace. -/
def pyStrip (s : String) : String :=
  ⟨(((s.data.dropWhile Char.isWhitespace).reverse).dropWhile Char.isWhitespace).reverse⟩

/-- Python str.split(sep) for a one-character separator, at the character
level: empty pieces are kept, and the empty string yields one empty piece. -/
def splitOnChar (c : Char) : List Char → List (List Char)
  | [] => [[]]
  | a :: rest =>
      match splitOnChar c rest with
      | [] => [[]]
      | s :: ss => if a = c then [] :: s :: ss else (a :: s) :: ss

/-- Python text.split("\n"): the lines of the text, empty lines kept. -/
def pySplit (text : String) : List String :=
  (splitOnChar '\n' text.data).map (fun l => ⟨l⟩)

/-- Python s.endswith(suffix). -/
def pyEndsWith (s suffix : String) : Bool :=
  suffix.data.isSuffixOf s.data

/-- Embedding of extract_keywords_from_text (src/file_extraction.py lines
59-69).  The external scorer fuzz.partial-ratio (rapidfuzz) is the abstract
parameter score; the source lowercases both the keyword and the line before
scoring, compares the score with the threshold inclusively (score >= threshold)
and records the stripped line under the keyword, later lines overwriting
earlier ones. -/
def extract_keywords_from_text (score : String → String → Nat)
    (text : String) (keywords : List String) (threshold : Nat) :
    List (String × String) :=
  (pySplit text).foldl
    (fun extracted line =>
      keywords.foldl
        (fun extracted keyword =>
          if threshold ≤ score (pyLower keyword) (pyLower line) then
            dictInsert extracted keyword (pyStrip line)
          else
            extracted)
        extracted)
    []

/-- The fixed keyword vocabulary (src/file_extraction.py lines 50-57). -/
def KEYWORDS : List String :=
  ["Event Type Code", "Capacity", "Estimated Attendance", "Number of Gates",
   "Attendance Ratio", "Parking Capacity", "Nearby Public Transport",
   "Transport Modes Count", "Transport Max Capacity", "Transport Cancelled Count",
   "VIP Zones Flag", "Number of Restrooms", "Number of Food Courts",
   "Number of First Aid Stations", "Number of Emergency Exits", "Weather Severity",
   "Celebrity Arrival", "VIP Attending", "Road Closure Expected", "Congestion Risk"]

/-- Python str.rfind for a single character, over the character list: the
index of the last occurrence, or -1 when the character is absent. -/
def rfindChar (c : Char) : List Char → Int
  | [] => -1
  | a :: rest =>
      let r := rfindChar c rest
      if 0 ≤ r then r + 1
      else if a = c then 0 else -1

/-- The while-loop of CPython genericpath: checks that some character at an
index in [lo, hi) is not a dot (so the candidate dot begins a real extension
rather than merely leading a hidden-file name). -/
def existsNonDot (chars : List Char) (lo hi : Nat) : Bool :=
  (List.range chars.length).any
    (fun i => decide (lo ≤ i) && decide (i < hi) && !(chars.getD i ' ' == '.'))

/-- Embedding of os.path.splitext (CPython genericpath, posix separators),
called at line 115: split at the last dot, unless every character between the
last path separator and that dot is itself a dot (hidden files such as
".pdf" have no extension). -/
def splitext (p : String) : String × String :=
  let chars := p.data
  let sepIndex := rfindChar '/' chars
  let dotIndex := rfindChar '.' chars
  if sepIndex < dotIndex then
    if existsNonDot chars (sepIndex + 1).toNat dotIndex.toNat then
      (⟨chars.take dotIndex.toNat⟩, ⟨chars.drop dotIndex.toNat⟩)
    else (p, "")
  else (p, "")

/-- The assembled Extraction Result: json_data = the dict with the filename
first and then the ordered per-page keyword-to-line mappings (line 112).
Each page mapping is an insertion-ordered association list, the shape
extract_keywords_from_text produces. -/
structure ExtractionResult where
  filename : String
  pages : List (List (String × String))
deriving DecidableEq, Repr

/-- Modelled from the spec: the string-literal escaping of the canonical byte
encoding (the serializer itself is the external Python json module, not
repository code).  The quote, the backslash and the common control characters
are backslash-escaped; every other character is written verbatim. -/
def escapeChars : List Char → List Char
  | [] => []
  | c :: rest =>
      (if c = '\\' then ['\\', '\\']
       else if c = '\"' then ['\\', '\"']
       else if c = '\n' then ['\\', 'n']
       else if c = '\t' then ['\\', 't']
       else if c = '\r' then ['\\', 'r']
       else [c]) ++ escapeChars rest

/-- Modelled from the spec: one key-value pair of a page mapping, rendered as
a JSON object member with the json.dumps default separators. -/
def renderPair (p : String × String) : List Char :=
  '\"' :: (escapeChars p.1.data ++ '\"' :: ':' :: ' ' :: '\"' :: (escapeChars p.2.data ++ ['\"']))

/-- Modelled from the spec: the members of one page mapping, comma-separated
in insertion order. -/
def renderPairsSep : List (String × String) → List Char
  | [] => []
  | [p] => renderPair p
  | p :: rest => renderPair p ++ ',' :: ' ' :: renderPairsSep rest

/-- Modelled from the spec: one page mapping as a JSON object. -/
def renderDict (d : List (String × String)) : List Char :=
  '\x7b' :: (renderPairsSep d ++ ['\x7d'])

/-- Modelled from the spec: the ordered sequence of page objects,
comma-separated. -/
def renderDictsSep : List (List (String × String)) → List Char
  | [] => []
  | [d] => renderDict d
  | d :: rest => renderDict d ++ ',' :: ' ' :: renderDictsSep rest

/-- Opening of the canonical encoding, up to and including the opening quote
of the filename value. -/
def jsonHeader : List Char :=
  '\x7b' :: '\"' :: ("filename".data ++ ['\"', ':', ' ', '\"'])

/-- Middle of the canonical encoding: from just after the closing quote of the
filename value up to and including the opening bracket of the page array. -/
def jsonMid : List Char :=
  ',' :: ' ' :: '\"' :: ("pages".data ++ ['\"', ':', ' ', '['])

/-- Modelled from the spec: the canonical byte encoding of an Extraction
Result (json.dumps of the dict built at line 112) — stable field order, the
filename first, then the pages as the ordered sequence of per-page
keyword-to-line objects. -/
def serializeResult (r : ExtractionResult) : String :=
  ⟨jsonHeader ++ (escapeChars r.filename.data ++ '\"' :: (jsonMid ++
    (renderDictsSep r.pages ++ [']', '\x7d'])))⟩

/-- Decoding of one backslash escape, inverse to escapeChars. -/
def unescapeChar (c : Char) : Char :=
  if c = 'n' then '\n' else if c = 't' then '\t' else if c = 'r' then '\r' else c

/-- Modelled from the spec: parse the body of a canonical string literal (the
opening quote already consumed), returning the decoded characters and the
input remaining after the closing quote. -/
def parseStringChars : List Char → Option (List Char × List Char)
  | [] => none
  | c :: rest =>
      if c = '\\' then
        match rest with
        | [] => none
        | e :: rest2 =>
            match parseStringChars rest2 with
            | some (s, r) => some (unescapeChar e :: s, r)
            | none => none
      else if c = '\"' then some ([], rest)
      else
        match parseStringChars rest with
        | some (s, r) => some (c :: s, r)
        | none => none

/-- Modelled from the spec: parse the members of one page object (the opening
brace already consumed), consuming the closing brace; fuelled recursion. -/
def parsePairs : Nat → List Char → Option (List (String × String) × List Char)
  | 0, _ => none
  | _ + 1, '\x7d' :: rest => some ([], rest)
  | fuel + 1, '\"' :: rest =>
      match parseStringChars rest with
      | some (k, ':' :: ' ' :: '\"' :: r2) =>
          match parseStringChars r2 with
          | some (v, '\x7d' :: r3) => some ([(⟨k⟩, ⟨v⟩)], r3)
          | some (v, ',' :: ' ' :: r3) =>
              match parsePairs fuel r3 with
              | some (ps, r4) => some ((⟨k⟩, ⟨v⟩) :: ps, r4)
              | none => none
          | _ => none
      | _ => none
  | _, _ => none

/-- Modelled from the spec: parse the page objects of the page array (the
opening bracket already consumed), consuming the closing bracket; fuelled
recursion. -/
def parsePages : Nat → List Char → Option (List (List (String × String)) × List Char)
  | 0, _ => none
  | _ + 1, ']' :: rest => some ([], rest)
  | fuel + 1, '\x7b' :: rest =>
      match parsePairs (rest.length + 1) rest with
      | some (d, ']' :: r2) => some ([d], r2)
      | some (d, ',' :: ' ' :: r2) =>
          match parsePages fuel r2 with
          | some (ds, r3) => some (d :: ds, r3)
          | none => none
      | _ => none
  | _, _ => none

/-- Expect the given literal characters at the head of the input and drop
them. -/
def expectChars : List Char → List Char → Option (List Char)
  | [], input => some input
  | c :: lr, d :: ir => if c = d then expectChars lr ir else none
  | _ :: _, [] => none

/-- Modelled from the spec: deserialization of the canonical byte encoding,
strict inverse of serializeResult. -/
def deserializeResult (s : String) : Option ExtractionResult :=
  match expectChars jsonHeader s.data with
  | none => none
  | some r1 =>
      match parseStringChars r1 with
      | none => none
      | some (fname, r2) =>
          match expectChars jsonMid r2 with
          | none => none
          | some r3 =>
              match parsePages (r3.length + 1) r3 with
              | some (pages, ['\x7d']) => some ⟨⟨fname⟩, pages⟩
              | _ => none

/-- Semantics of executor.map over ocr_page (lines 90-91): results are
collected in input order, and the first exception raised by a worker
propagates to the caller when its result is collected. -/
def mapExcept (f : α → Except ε β) : List α → Except ε (List β)
  | [] => .ok []
  | a :: rest =>
      match f a with
      | .error e => .error e
      | .ok b =>
          match mapExcept f rest with
          | .error e => .error e
          | .ok bs => .ok (b :: bs)

/-- Outcomes of the external effects one run of process_pdf_multiprocess
observes: what convert_from_path returns or raises, what ocr_page returns or
raises for each image, whether the S3 upload succeeds, whether the temp PDF
still exists at cleanup time, and the external fuzzy scorer. -/
structure PipelineEnv where
  convert : Except PdfError (List String)
  ocr : String → Except String String
  uploadOk : Bool
  pdfExists : Bool
  score : String → String → Nat

/-- Observable effects of one run of process_pdf_multiprocess: the writes to
file_status[filename] in program order, the number of os.remove(pdf_path)
calls, and the S3 object written on success (key and serialized body). -/
structure RunResult where
  statusWrites : List FileStatus
  removes : Nat
  uploaded : Option (String × String)
deriving DecidableEq, Repr

/-- The first try-block of process_pdf_multiprocess (lines 84-109):
rasterization, OCR of every page in order, then extract_keywords_from_text per
page (threshold left at its default 70).  Worker failures surface through the
catch-all Exception branch. -/
def pipelineStage1 (env : PipelineEnv) : Except PdfError (List (List (String × String))) :=
  match env.convert with
  | .error e => .error e
  | .ok images =>
      match mapExcept env.ocr images with
      | .error _ => .error .otherException
      | .ok page_texts =>
          .ok (page_texts.map (fun text => extract_keywords_from_text env.score text KEYWORDS 70))

/-- Embedding of process_pdf_multiprocess (lines 79-136).  The three except
branches of the first try each set file_status[filename] = "failed" and return
without reaching the finally-block of the second try, so they perform no
os.remove.  On the success path json_data = the filename and the per-page
extractions (line 112), the S3 key drops the extension via os.path.splitext
(lines 115-116), and the finally-block removes the temp PDF when it still
exists (lines 133-136), whether the upload succeeded or not. -/
def process_pdf_multiprocess (env : PipelineEnv) (pdf_path filename : String) : RunResult :=
  match pipelineStage1 env with
  | .error _ =>
      { statusWrites := [.processing, .failed], removes := 0, uploaded := none }
  | .ok extracted_data =>
      let file_base_name := (splitext filename).1
      let s3_key := file_base_name ++ ".json"
      let json_bytes := serializeResult { filename := filename, pages := extracted_data }
      let removes := if env.pdfExists then 1 else 0
      if env.uploadOk then
        { statusWrites := [.processing, .done], removes := removes,
          uploaded := some (s3_key, json_bytes) }
      else
        { statusWrites := [.processing, .failed], removes := removes, uploaded := none }

/-- Modelled from the spec: the contract get_result(id) of the Status/Result
Registry.  The source keeps only the status store file_status (line 47); no
code path of src/file_extraction.py stores an Extraction Result in process
memory and no retrieval endpoint exists, so a result lookup after any run
finds nothing. -/
def get_result (r : RunResult) (filename : String) : Option ExtractionResult :=
  none

/-- HTTPException responses the upload endpoint can raise (lines 141, 149). -/
inductive HTTPError where
  | badRequest (detail : String)
  | internalError (detail : String)
deriving DecidableEq, Repr

/-- Outcomes of the external effects the upload handler observes: whether
streaming the payload into the NamedTemporaryFile raises, and the temp file
name the tempfile module picks. -/
structure UploadEnv where
  saveOk : Bool
  tmpName : String

/-- Observable behavior of one call of the upload endpoint: the response (the
message and filename fields of the 200 body, or the raised HTTPException), the
background tasks scheduled (pdf_path and filename arguments of
process_pdf_multiprocess), and the writes to file_status performed by the
handler itself (the source performs none: the pipeline writes the first status
only once the background task runs). -/
structure UploadOutcome where
  response : Except HTTPError (String × String)
  scheduled : List (String × String)
  statusWrites : List FileStatus
deriving Repr

/-- Embedding of the upload endpoint (lines 138-154): reject any filename that
does not end in ".pdf" after lowercasing with a 400 before anything else
happens; surface a temp-file failure as a 500; otherwise schedule
process_pdf_multiprocess as a background task and return at once. -/
def upload (env : UploadEnv) (filename : String) : UploadOutcome :=
  if pyEndsWith (pyLower filename) ".pdf" = false then
    { response := .error (.badRequest "Only PDF files are allowed."),
      scheduled := [], statusWrites := [] }
  else if env.saveOk = false then
    { response := .error (.internalError "Failed to save temp PDF"),
      scheduled := [], statusWrites := [] }
  else
    { response := .ok ("File is being processed in background", filename),
      scheduled := [(env.tmpName, filename)], statusWrites := [] }

/-- Denotation of the Parallel Recognition Stage (lines 90-91): whatever
max_workers is, executor.map returns the per-page results in input order. -/
def parallel_recognition (max_workers : Nat) (ocr : α → β) (pages : List α) : List β :=
  pages.map ocr

/-- Operational model of the worker pool: tasks may complete in any order;
when task i completes, its result is stored in slot i; the stage reads the
slots in page order once all tasks are done. -/
def execPool (ocr : α → β) (pages : List α) (order : List Nat) : List (Option β) :=
  order.foldl (fun slots i => slots.set i ((pages.get? i).map ocr))
    (List.replicate pages.length none)

/-- Unfolding of List.lookup on a cons cell with an arbitrary pair. -/
theorem lookup_cons_pair (k : String) (p : String × String) (l : List (String × String)) :
    List.lookup k (p :: l) = if k == p.1 then some p.2 else List.lookup k l := by
  obtain ⟨a, b⟩ := p
  cases h : k == a with
  | true => simp [List.lookup, h]
  | false => simp [List.lookup, h]

/-- Updating the value stored under k leaves lookups of other keys unchanged. -/
theorem lookup_map_update_ne (d : List (String × String)) (k v k' : String) (h : k' ≠ k) :
    (d.map (fun p => if p.1 == k then (k, v) else p)).lookup k' = d.lookup k' := by
  induction d with
  | nil => rfl
  | cons p rest ih =>
      by_cases hp : p.1 = k
      · have hhead : (if (p.1 == k) = true then (k, v) else p) = (k, v) := by simp [hp]
        rw [List.map_cons, hhead, lookup_cons_pair, lookup_cons_pair, ih]
        have hne : (k' == k) = false := beq_eq_false_iff_ne.mpr h
        have hne2 : (k' == p.1) = false :=
          beq_eq_false_iff_ne.mpr (fun he => h (he.trans hp))
        simp [hne, hne2]
      · have hhead : (if (p.1 == k) = true then (k, v) else p) = p := by
          simp [beq_eq_false_iff_ne.mpr hp]
        rw [List.map_cons, hhead, lookup_cons_pair, lookup_cons_pair, ih]

/-- Lookup after a Python dict assignment: the assigned key now maps to the
new value, every other key is untouched. -/
theorem dictInsert_lookup (d : List (String × String)) (k v k' : String) :
    (dictInsert d k v).lookup k' = if k' = k then some v else d.lookup k' := by
  induction d with
  | nil =>
      show List.lookup k' [(k, v)] = _
      rw [lookup_cons_pair]
      by_cases h : k' = k
      · simp [h]
      · simp [beq_eq_false_iff_ne.mpr h, h, List.lookup]
  | cons p rest ih =>
      by_cases hp : p.1 = k
      · have hany : (p :: rest).any (fun q => q.1 == k) = true := by
          simp [List.any_cons, hp]
        have hhead : (if (p.1 == k) = true then (k, v) else p) = (k, v) := by simp [hp]
        rw [dictInsert, if_pos hany, List.map_cons, hhead, lookup_cons_pair]
        by_cases h : k' = k
        · simp [h]
        · have hne : (k' == k) = false := beq_eq_false_iff_ne.mpr h
          have hne2 : (k' == p.1) = false :=
            beq_eq_false_iff_ne.mpr (fun he => h (he.trans hp))
          rw [lookup_cons_pair, lookup_map_update_ne rest k v k' h]
          simp [hne, hne2, h]
      · have hp2 : (p.1 == k) = false := beq_eq_false_iff_ne.mpr hp
        have hstep : dictInsert (p :: rest) k v = p :: dictInsert rest k v := by
          by_cases ha : rest.any (fun q => q.1 == k)
          · have hany : (p :: rest).any (fun q => q.1 == k) = true := by
              simp [List.any_cons, ha]
            have hhead : (if (p.1 == k) = true then (k, v) else p) = p := by simp [hp2]
            rw [dictInsert, if_pos hany, List.map_cons, hhead, dictInsert, if_pos ha]
          · have hany : (p :: rest).any (fun q => q.1 == k) = false := by
              simp only [List.any_cons, hp2, Bool.false_or]
              exact Bool.not_eq_true _ ▸ (by simpa using ha)
            rw [dictInsert, hany, dictInsert, if_neg (by simp_all), if_neg (by simp_all),
              List.cons_append]
        rw [hstep, lookup_cons_pair, lookup_cons_pair]
        by_cases h : k' = p.1
        · have hb : (k' == p.1) = true := beq_iff_eq.mpr h
          have hne : k' ≠ k := fun hkk => hp (h ▸ hkk)
          simp [hb, hne]
        · have hb : (k' == p.1) = false := beq_eq_false_iff_ne.mpr h
          simp [hb, ih]

/-- One line of the scan: after folding the keyword list over a single line,
a keyword maps to this line's stripped text exactly when the line passes the
threshold for it; all other lookups are unchanged. -/
theorem innerFold_lookup (score : String → String → Nat) (T : Nat) (line : String)
    (keywords : List String) (acc : List (String × String)) (k : String) :
    (keywords.foldl
      (fun ex kw => if T ≤ score (pyLower kw) (pyLower line) then dictInsert ex kw (pyStrip line) else ex)
      acc).lookup k
    = if k ∈ keywords ∧ T ≤ score (pyLower k) (pyLower line) then some (pyStrip line)
      else acc.lookup k := by
  induction keywords generalizing acc with
  | nil => simp
  | cons kw rest ih =>
      rw [List.foldl_cons, ih]
      by_cases hmem : k ∈ rest ∧ T ≤ score (pyLower k) (pyLower line)
      · have : k ∈ kw :: rest ∧ T ≤ score (pyLower k) (pyLower line) :=
          ⟨List.mem_cons_of_mem kw hmem.1, hmem.2⟩
        simp [hmem, this]
      · simp only [hmem, if_false]
        by_cases hk : k = kw
        · subst hk
          by_cases hs : T ≤ score (pyLower k) (pyLower line)
          · have hc : k ∈ k :: rest ∧ T ≤ score (pyLower k) (pyLower line) :=
              ⟨List.mem_cons_self k rest, hs⟩
            simp [hs, hc, dictInsert_lookup]
          · have hc : ¬(k ∈ k :: rest ∧ T ≤ score (pyLower k) (pyLower line)) :=
              fun h => hs h.2
            simp [hs, hc]
        · by_cases hs2 : T ≤ score (pyLower kw) (pyLower line)
          · have hc : ¬(k ∈ kw :: rest ∧ T ≤ score (pyLower k) (pyLower line)) := by
              intro h
              rcases List.mem_cons.mp h.1 with h1 | h1
              · exact hk h1
              · exact hmem ⟨h1, h.2⟩
            rw [if_pos hs2, dictInsert_lookup, if_neg hk, if_neg hc]
          · have hc : ¬(k ∈ kw :: rest ∧ T ≤ score (pyLower k) (pyLower line)) := by
              intro h
              rcases List.mem_cons.mp h.1 with h1 | h1
              · exact hs2 (h1 ▸ h.2)
              · exact hmem ⟨h1, h.2⟩
            rw [if_neg hs2, if_neg hc]

/-- Scanning the lines: a keyword of the list ends up mapped to the stripped
text of the last line that passes the threshold for it (earlier state when no
line passes); keywords outside the list keep their earlier state. -/
theorem outerFold_lookup (score : String → String → Nat) (T : Nat)
    (keywords : List String) (k : String) (lines : List String)
    (acc : List (String × String)) :
    (lines.foldl
      (fun extracted line =>
        keywords.foldl
          (fun ex kw => if T ≤ score (pyLower kw) (pyLower line) then dictInsert ex kw (pyStrip line) else ex)
          extracted)
      acc).lookup k
    = if k ∈ keywords then
        lines.foldl
          (fun r line => if T ≤ score (pyLower k) (pyLower line) then some (pyStrip line) else r)
          (acc.lookup k)
      else acc.lookup k := by
  induction lines generalizing acc with
  | nil => simp
  | cons line rest ih =>
      rw [List.foldl_cons, ih, innerFold_lookup]
      by_cases hmem : k ∈ keywords
      · by_cases hs : T ≤ score (pyLower k) (pyLower line)
        · simp [hmem, hs]
        · simp [hmem, hs]
      · simp [hmem]

/-- Master characterization of extract_keywords_from_text: the recorded match
for a keyword of the list is the stripped text of the last threshold-passing
line, and keywords outside the list are absent. -/
theorem extract_lookup_eq (score : String → String → Nat) (text : String)
    (keywords : List String) (T : Nat) (k : String) :
    (extract_keywords_from_text score text keywords T).lookup k
    = if k ∈ keywords then
        (pySplit text).foldl
          (fun r line => if T ≤ score (pyLower k) (pyLower line) then some (pyStrip line) else r)
          none
      else none := by
  unfold extract_keywords_from_text
  rw [outerFold_lookup]
  rfl

/-- A fold that only ever overwrites with some keeps its seed when no line
passes. -/
theorem lastMatch_fold_of_none (score : String → String → Nat) (T : Nat) (k : String)
    (suf : List String) :
    ∀ r : Option String, (∀ l ∈ suf, score (pyLower k) (pyLower l) < T) →
    suf.foldl (fun r line => if T ≤ score (pyLower k) (pyLower line) then some (pyStrip line) else r) r
      = r := by
  induction suf with
  | nil => intro r h; rfl
  | cons l rest ih =>
      intro r h
      have hl : score (pyLower k) (pyLower l) < T := h l (List.mem_cons_self l rest)
      have hl2 : ¬ T ≤ score (pyLower k) (pyLower l) := Nat.not_le.mpr hl
      rw [List.foldl_cons, if_neg hl2]
      exact ih r (fun x hx => h x (List.mem_cons_of_mem l hx))

/-- The last-match fold yields none exactly when the seed is none and no line
passes the threshold. -/
theorem lastMatch_fold_eq_none_iff (score : String → String → Nat) (T : Nat) (k : String)
    (lines : List String) (r : Option String) :
    lines.foldl (fun r line => if T ≤ score (pyLower k) (pyLower line) then some (pyStrip line) else r) r
        = none
    ↔ r = none ∧ ∀ l ∈ lines, ¬ T ≤ score (pyLower k) (pyLower l) := by
  induction lines generalizing r with
  | nil => simp
  | cons l rest ih =>
      rw [List.foldl_cons]
      by_cases hs : T ≤ score (pyLower k) (pyLower l)
      · rw [if_pos hs, ih]
        constructor
        · rintro ⟨h1, _⟩; exact absurd h1 (by simp)
        · rintro ⟨_, h2⟩; exact absurd hs (h2 l (List.mem_cons_self l rest))
      · rw [if_neg hs, ih]
        constructor
        · rintro ⟨h1, h2⟩
          refine ⟨h1, fun x hx => ?_⟩
          rcases List.mem_cons.mp hx with h3 | h3
          · exact h3 ▸ hs
          · exact h2 x h3
        · rintro ⟨h1, h2⟩
          exact ⟨h1, fun x hx => h2 x (List.mem_cons_of_mem l hx)⟩

/-- Lookup finds an entry exactly when the key occurs among the keys. -/
theorem lookup_eq_none_iff (d : List (String × String)) (k : String) :
    d.lookup k = none ↔ k ∉ d.map Prod.fst := by
  induction d with
  | nil => simp
  | cons p rest ih =>
      rw [lookup_cons_pair]
      by_cases h : k = p.1
      · simp [beq_iff_eq.mpr h, h]
      · simp [beq_eq_false_iff_ne.mpr h, h, ih]

/-- Entries after a Python dict assignment: every entry was already present or
is the assigned binding. -/
theorem dictInsert_mem (d : List (String × String)) (k v : String) (p : String × String)
    (h : p ∈ dictInsert d k v) : p ∈ d ∨ p = (k, v) := by
  unfold dictInsert at h
  by_cases ha : d.any (fun q => q.1 == k)
  · rw [if_pos ha] at h
    rcases List.mem_map.mp h with ⟨q, hq, hqe⟩
    by_cases hqk : (q.1 == k) = true
    · right
      rw [← hqe, if_pos hqk]
    · left
      rw [← hqe, if_neg hqk]
      exact hq
  · rw [if_neg ha] at h
    rcases List.mem_append.mp h with h1 | h1
    · exact Or.inl h1
    · right; simpa using h1

/-- Entries created while scanning one line: anything new pairs a keyword of
the list with this line's stripped text. -/
theorem innerFold_mem (score : String → String → Nat) (T : Nat) (line : String)
    (keywords : List String) :
    ∀ (acc : List (String × String)) (p : String × String),
      p ∈ keywords.foldl
        (fun ex kw => if T ≤ score (pyLower kw) (pyLower line) then dictInsert ex kw (pyStrip line) else ex)
        acc →
      p ∈ acc ∨ (p.1 ∈ keywords ∧ p.2 = pyStrip line) := by
  induction keywords with
  | nil => intro acc p h; exact Or.inl h
  | cons kw rest ih =>
      intro acc p h
      rw [List.foldl_cons] at h
      rcases ih _ p h with h1 | h1
      · by_cases hs : T ≤ score (pyLower kw) (pyLower line)
        · rw [if_pos hs] at h1
          rcases dictInsert_mem _ _ _ _ h1 with h2 | h2
          · exact Or.inl h2
          · right
            refine ⟨?_, ?_⟩
            · rw [h2]; exact List.mem_cons_self kw rest
            · rw [h2]
        · rw [if_neg hs] at h1
          exact Or.inl h1
      · exact Or.inr ⟨List.mem_cons_of_mem kw h1.1, h1.2⟩

/-- Entries created while scanning the lines: anything new pairs a keyword of
the list with the stripped text of some scanned line. -/
theorem outerFold_mem (score : String → String → Nat) (T : Nat) (keywords : List String)
    (lines : List String) :
    ∀ (acc : List (String × String)) (p : String × String),
      p ∈ lines.foldl
        (fun extracted line =>
          keywords.foldl
            (fun ex kw => if T ≤ score (pyLower kw) (pyLower line) then dictInsert ex kw (pyStrip line) else ex)
            extracted)
        acc →
      p ∈ acc ∨ (p.1 ∈ keywords ∧ ∃ l ∈ lines, p.2 = pyStrip l) := by
  induction lines with
  | nil => intro acc p h; exact Or.inl h
  | cons line rest ih =>
      intro acc p h
      rw [List.foldl_cons] at h
      rcases ih _ p h with h1 | h1
      · rcases innerFold_mem score T line keywords acc p h1 with h2 | h2
        · exact Or.inl h2
        · exact Or.inr ⟨h2.1, ⟨line, List.mem_cons_self line rest, h2.2⟩⟩
      · exact Or.inr ⟨h1.1, h1.2.imp (fun l hl => ⟨List.mem_cons_of_mem line hl.1, hl.2⟩)⟩

/-- Every entry of the extraction pairs a keyword of the supplied list with
the stripped text of some line of the input. -/
theorem extract_mem (score : String → String → Nat) (text : String)
    (keywords : List String) (T : Nat) (k v : String)
    (h : (k, v) ∈ extract_keywords_from_text score text keywords T) :
    k ∈ keywords ∧ ∃ l ∈ pySplit text, v = pyStrip l := by
  unfold extract_keywords_from_text at h
  rcases outerFold_mem score T keywords (pySplit text) [] (k, v) h with h1 | h1
  · cases h1
  · exact h1

/-- When no keyword passes the threshold on a line, scanning the line changes
nothing. -/
theorem innerFold_of_fail (score : String → String → Nat) (T : Nat) (line : String)
    (keywords : List String) :
    ∀ (acc : List (String × String)),
      (∀ kw ∈ keywords, ¬ T ≤ score (pyLower kw) (pyLower line)) →
      keywords.foldl
        (fun ex kw => if T ≤ score (pyLower kw) (pyLower line) then dictInsert ex kw (pyStrip line) else ex)
        acc = acc := by
  induction keywords with
  | nil => intro acc _; rfl
  | cons kw rest ih =>
      intro acc h
      rw [List.foldl_cons, if_neg (h kw (List.mem_cons_self kw rest))]
      exact ih acc (fun x hx => h x (List.mem_cons_of_mem kw hx))

/-- On the empty text — a single empty line after splitting — nothing ever
reaches the threshold, provided, as rapidfuzz guarantees for nonempty
keywords, that the score against the empty line is below the threshold; the
extraction is the empty mapping (no placeholder entries). -/
theorem extract_empty_text (score : String → String → Nat) (keywords : List String) (T : Nat)
    (h : ∀ k ∈ keywords, score (pyLower k) "" < T) :
    extract_keywords_from_text score "" keywords T = [] := by
  unfold extract_keywords_from_text
  have hsplit : pySplit "" = [""] := rfl
  have hlow : pyLower "" = "" := rfl
  rw [hsplit, List.foldl_cons, List.foldl_nil]
  exact innerFold_of_fail score T "" keywords []
    (fun kw hkw => Nat.not_le.mpr (by rw [hlow]; exact h kw hkw))

/-- Python rfind never returns a value below -1. -/
theorem rfindChar_neg (c : Char) (l : List Char) (h : ¬ 0 ≤ rfindChar c l) :
    rfindChar c l = -1 := by
  induction l with
  | nil => rfl
  | cons a rest ih =>
      simp only [rfindChar] at h ⊢
      by_cases h2 : 0 ≤ rfindChar c rest
      · rw [if_pos h2] at h ⊢
        omega
      · rw [if_neg h2] at h ⊢
        by_cases h3 : a = c
        · rw [if_pos h3] at h ⊢
          omega
        · rw [if_neg h3]

/-- Python rfind over an appended list prefers the second part. -/
theorem rfindChar_append (c : Char) (l1 l2 : List Char) :
    rfindChar c (l1 ++ l2) =
      if 0 ≤ rfindChar c l2 then (l1.length : Int) + rfindChar c l2 else rfindChar c l1 := by
  induction l1 with
  | nil =>
      by_cases h : 0 ≤ rfindChar c l2
      · simp [h]
      · simp only [List.nil_append, if_neg h]
        rw [rfindChar_neg c l2 h]
        rfl
  | cons a l1 ih =>
      rw [List.cons_append]
      simp only [rfindChar, ih]
      by_cases h2 : 0 ≤ rfindChar c l2
      · have hpos : (0 : Int) ≤ (l1.length : Int) + rfindChar c l2 :=
          add_nonneg (Int.ofNat_nonneg _) h2
        simp only [if_pos h2, if_pos hpos, List.length_cons]
        push_cast
        ring
      · simp only [if_neg h2]

/-- Python rfind returns -1 when the character is absent. -/
theorem rfindChar_of_not_mem (c : Char) (l : List Char) (h : c ∉ l) :
    rfindChar c l = -1 := by
  induction l with
  | nil => rfl
  | cons a rest ih =>
      have h1 : c ∉ rest := fun hx => h (List.mem_cons_of_mem a hx)
      have h2 : a ≠ c := fun he => h (he ▸ List.mem_cons_self a rest)
      simp [rfindChar, ih h1, h2]

/-- A leading occurrence followed by none is found at index zero. -/
theorem rfindChar_cons_self (c : Char) (tail : List Char) (h : c ∉ tail) :
    rfindChar c (c :: tail) = 0 := by
  simp [rfindChar, rfindChar_of_not_mem c tail h]

/-- os.path.splitext splits a filename of the form stem + extension exactly at
the extension dot, provided the stem holds no path separator and at least one
non-dot character, and the extension after its dot holds no further dot and no
separator. -/
theorem splitext_append (stem : String) (tail : List Char)
    (hsep : '/' ∉ stem.data) (hnd : ∃ c ∈ stem.data, c ≠ '.')
    (hnd2 : '.' ∉ tail) (hns2 : '/' ∉ tail) :
    splitext (stem ++ ⟨'.' :: tail⟩) = (stem, ⟨'.' :: tail⟩) := by
  have hdata : (stem ++ (⟨'.' :: tail⟩ : String)).data = stem.data ++ '.' :: tail := rfl
  have hsepIdx : rfindChar '/' (stem.data ++ '.' :: tail) = -1 := by
    refine rfindChar_of_not_mem _ _ (fun hx => ?_)
    rcases List.mem_append.mp hx with h1 | h1
    · exact hsep h1
    · rcases List.mem_cons.mp h1 with h2 | h2
      · exact absurd h2 (by decide)
      · exact hns2 h2
  have hdotIdx : rfindChar '.' (stem.data ++ '.' :: tail) = (stem.data.length : Int) := by
    rw [rfindChar_append, rfindChar_cons_self '.' tail hnd2]
    norm_num
  have hex : existsNonDot (stem.data ++ '.' :: tail) 0 stem.data.length = true := by
    rcases hnd with ⟨c, hc, hcne⟩
    rcases List.getElem_of_mem hc with ⟨i, hi, hgi⟩
    unfold existsNonDot
    rw [List.any_eq_true]
    refine ⟨i, List.mem_range.mpr ?_, ?_⟩
    · calc i < stem.data.length := hi
        _ ≤ (stem.data ++ '.' :: tail).length := by
            rw [List.length_append]; omega
    · have hgd : (stem.data ++ '.' :: tail).getD i ' ' = c := by
        rw [List.getD_append _ _ _ _ hi, List.getD_eq_getElem _ _ hi, hgi]
      have hi2 : i < stem.length := hi
      rw [hgd]
      simp [hcne, hi, hi2]
  unfold splitext
  rw [hdata]
  simp only [hsepIdx, hdotIdx]
  have hlt : (-1 : Int) < (stem.data.length : Int) := by
    have : (0 : Int) ≤ (stem.data.length : Int) := Int.ofNat_nonneg _
    omega
  rw [if_pos hlt]
  have htn : ((-1 : Int) + 1).toNat = 0 := rfl
  have htn2 : ((stem.data.length : Int)).toNat = stem.data.length := Int.toNat_ofNat _
  rw [htn, htn2, if_pos hex, List.take_left, List.drop_left]

/-- Expecting a literal that the input indeed starts with consumes it. -/
theorem expectChars_append (lit rest : List Char) :
    expectChars lit (lit ++ rest) = some rest := by
  induction lit with
  | nil => rfl
  | cons c lr ih => simp [expectChars, ih]

/-- Case unfolding of parseStringChars on a cons cell, for an arbitrary
tail. -/
theorem parseStringChars_cons (c : Char) (rest : List Char) :
    parseStringChars (c :: rest) =
      if c = '\\' then
        match rest with
        | [] => none
        | e :: rest2 =>
            match parseStringChars rest2 with
            | some (s, r) => some (unescapeChar e :: s, r)
            | none => none
      else if c = '\"' then some ([], rest)
      else
        match parseStringChars rest with
        | some (s, r) => some (c :: s, r)
        | none => none := by
  cases rest with
  | nil => rfl
  | cons e rest2 => rfl

/-- String-literal round-trip: parsing an escaped string body recovers the
original characters and leaves the input after the closing quote. -/
theorem parseStringChars_escape (cs : List Char) :
    ∀ rest : List Char, parseStringChars (escapeChars cs ++ '\"' :: rest) = some (cs, rest) := by
  induction cs with
  | nil =>
      intro rest
      show parseStringChars ('\"' :: rest) = some ([], rest)
      rw [parseStringChars_cons]
      simp
  | cons c cs ih =>
      intro rest
      show parseStringChars
        ((if c = '\\' then ['\\', '\\']
          else if c = '\"' then ['\\', '\"']
          else if c = '\n' then ['\\', 'n']
          else if c = '\t' then ['\\', 't']
          else if c = '\r' then ['\\', 'r']
          else [c]) ++ escapeChars cs ++ '\"' :: rest) = some (c :: cs, rest)
      by_cases h1 : c = '\\'
      · subst h1
        simp [parseStringChars_cons, unescapeChar, ih]
      · by_cases h2 : c = '\"'
        · subst h2
          simp [parseStringChars_cons, unescapeChar, ih, h1]
        · by_cases h3 : c = '\n'
          · subst h3
            simp [parseStringChars_cons, unescapeChar, ih]
          · by_cases h4 : c = '\t'
            · subst h4
              simp [parseStringChars_cons, unescapeChar, ih]
            · by_cases h5 : c = '\r'
              · subst h5
                simp [parseStringChars_cons, unescapeChar, ih]
              · simp [h1, h2, h3, h4, h5, parseStringChars_cons, ih]

/-- Rendering a page mapping never shrinks below one character per member. -/
theorem le_length_renderPairsSep (d : List (String × String)) :
    d.length ≤ (renderPairsSep d).length := by
  induction d with
  | nil => simp [renderPairsSep]
  | cons p rest ih =>
      cases rest with
      | nil =>
          simp [renderPairsSep, renderPair]
      | cons q rest2 =>
          have hr : renderPairsSep (p :: q :: rest2)
              = renderPair p ++ ',' :: ' ' :: renderPairsSep (q :: rest2) := rfl
          rw [hr]
          simp only [List.length_append, List.length_cons] at ih ⊢
          omega

/-- Rendering the page array never shrinks below one character per page. -/
theorem le_length_renderDictsSep (ds : List (List (String × String))) :
    ds.length ≤ (renderDictsSep ds).length := by
  induction ds with
  | nil => simp [renderDictsSep]
  | cons d rest ih =>
      cases rest with
      | nil =>
          simp [renderDictsSep, renderDict]
      | cons e rest2 =>
          have hr : renderDictsSep (d :: e :: rest2)
              = renderDict d ++ ',' :: ' ' :: renderDictsSep (e :: rest2) := rfl
          rw [hr]
          simp only [renderDict, List.length_append, List.length_cons] at ih ⊢
          omega

/-- Page-object round-trip: with enough fuel, parsing a rendered page mapping
followed by the closing brace recovers the mapping and the rest of the
input. -/
theorem parsePairs_render (d : List (String × String)) :
    ∀ (fuel : Nat) (rest : List Char), d.length + 1 ≤ fuel →
      parsePairs fuel (renderPairsSep d ++ '\x7d' :: rest) = some (d, rest) := by
  induction d with
  | nil =>
      intro fuel rest hf
      obtain ⟨f, rfl⟩ : ∃ f, fuel = f + 1 := ⟨fuel - 1, by omega⟩
      rfl
  | cons p rest' ih =>
      intro fuel rest hf
      obtain ⟨f, rfl⟩ : ∃ f, fuel = f + 1 := ⟨fuel - 1, by omega⟩
      obtain ⟨k, v⟩ := p
      cases rest' with
      | nil =>
          show parsePairs (f + 1) (renderPair (k, v) ++ '\x7d' :: rest) = some ([(k, v)], rest)
          simp only [renderPair, List.cons_append, List.append_assoc, List.nil_append]
          rw [parsePairs]
          simp only [parseStringChars_escape, List.nil_append]
      | cons q rest2 =>
          have hih := ih f rest (by simp only [List.length_cons] at hf ⊢; omega)
          have hr : renderPairsSep ((k, v) :: q :: rest2)
              = renderPair (k, v) ++ ',' :: ' ' :: renderPairsSep (q :: rest2) := rfl
          rw [hr]
          simp only [renderPair, List.cons_append, List.append_assoc, List.nil_append]
          rw [parsePairs]
          simp only [parseStringChars_escape, List.nil_append, hih]

/-- Page-array round-trip: with enough fuel, parsing the rendered sequence of
page objects followed by the closing bracket recovers the pages in order. -/
theorem parsePages_render (ds : List (List (String × String))) :
    ∀ (fuel : Nat) (rest : List Char), ds.length + 1 ≤ fuel →
      parsePages fuel (renderDictsSep ds ++ ']' :: rest) = some (ds, rest) := by
  induction ds with
  | nil =>
      intro fuel rest hf
      obtain ⟨f, rfl⟩ : ∃ f, fuel = f + 1 := ⟨fuel - 1, by omega⟩
      rfl
  | cons d rest' ih =>
      intro fuel rest hf
      obtain ⟨f, rfl⟩ : ∃ f, fuel = f + 1 := ⟨fuel - 1, by omega⟩
      cases rest' with
      | nil =>
          show parsePages (f + 1) (renderDict d ++ ']' :: rest) = some ([d], rest)
          simp only [renderDict, List.cons_append, List.append_assoc, List.nil_append]
          rw [parsePages]
          have hp := parsePairs_render d
            ((renderPairsSep d ++ '\x7d' :: ']' :: rest).length + 1) (']' :: rest) (by
              have h1 := le_length_renderPairsSep d
              simp only [List.length_append, List.length_cons]
              omega)
          simp only [hp]
      | cons e rest2 =>
          have hih := ih f rest (by simp only [List.length_cons] at hf ⊢; omega)
          have hr : renderDictsSep (d :: e :: rest2)
              = renderDict d ++ ',' :: ' ' :: renderDictsSep (e :: rest2) := rfl
          rw [hr]
          simp only [renderDict, List.cons_append, List.append_assoc, List.nil_append]
          rw [parsePages]
          have hp := parsePairs_render d
            ((renderPairsSep d ++ '\x7d' :: ',' :: ' ' ::
              (renderDictsSep (e :: rest2) ++ ']' :: rest)).length + 1)
            (',' :: ' ' :: (renderDictsSep (e :: rest2) ++ ']' :: rest)) (by
              have h1 := le_length_renderPairsSep d
              simp only [List.length_append, List.length_cons]
              omega)
          simp only [hp, hih]

/-- Canonical-encoding round-trip: deserializing a serialized Extraction
Result recovers the filename, the page order and every page mapping. -/
theorem deserialize_serialize (r : ExtractionResult) :
    deserializeResult (serializeResult r) = some r := by
  obtain ⟨fname, pages⟩ := r
  unfold serializeResult deserializeResult
  have hdata : (⟨jsonHeader ++ (escapeChars fname.data ++ '\"' ::
      (jsonMid ++ (renderDictsSep pages ++ [']', '\x7d'])))⟩ : String).data
      = jsonHeader ++ (escapeChars fname.data ++ '\"' ::
        (jsonMid ++ (renderDictsSep pages ++ [']', '\x7d']))) := rfl
  have hp := parsePages_render pages
    ((renderDictsSep pages ++ [']', '\x7d']).length + 1) ['\x7d'] (by
      have h1 := le_length_renderDictsSep pages
      simp only [List.length_append, List.length_cons]
      omega)
  simp only [hdata, expectChars_append, parseStringChars_escape, hp]

/-- Folding completions over the slots never changes the number of slots. -/
theorem execPool_fold_length {α β : Type _} (ocr : α → β) (pages : List α) :
    ∀ (order : List Nat) (slots : List (Option β)),
      (order.foldl (fun slots i => slots.set i ((pages.get? i).map ocr)) slots).length
        = slots.length := by
  intro order
  induction order with
  | nil => intro slots; rfl
  | cons i order ih =>
      intro slots
      rw [List.foldl_cons, ih, List.length_set]

/-- Slot contents after an arbitrary completion order: every completed task's
slot holds that page's recognition output; untouched slots keep their initial
content. -/
theorem execPool_fold_get {α β : Type _} (ocr : α → β) (pages : List α) :
    ∀ (order : List Nat) (slots : List (Option β)) (j : Nat),
      slots.length = pages.length →
      (order.foldl (fun slots i => slots.set i ((pages.get? i).map ocr)) slots).get? j
      = if j ∈ order ∧ j < pages.length then some ((pages.get? j).map ocr)
        else slots.get? j := by
  intro order
  induction order with
  | nil =>
      intro slots j hlen
      simp
  | cons i order ih =>
      intro slots j hlen
      rw [List.foldl_cons, ih _ j (by rw [List.length_set]; exact hlen)]
      by_cases h1 : j ∈ order ∧ j < pages.length
      · have h2 : j ∈ i :: order ∧ j < pages.length :=
          ⟨List.mem_cons_of_mem i h1.1, h1.2⟩
        simp [h1, h2]
      · rw [if_neg h1]
        by_cases h3 : j = i
        · subst h3
          by_cases h4 : j < pages.length
          · have h2 : j ∈ j :: order ∧ j < pages.length :=
              ⟨List.mem_cons_self j order, h4⟩
            rw [if_pos h2]
            rw [List.get?_set_eq]
            have h5 : slots.get? j = some (slots.get ⟨j, by omega⟩) :=
              List.get?_eq_get (by omega)
            rw [h5]
            rfl
          · have h2 : ¬(j ∈ j :: order ∧ j < pages.length) := fun hc => h4 hc.2
            rw [if_neg h2, List.get?_set_eq]
            have h5 : slots.get? j = none := List.get?_eq_none.mpr (by omega)
            rw [h5]
            rfl
        · have h2 : (j ∈ i :: order ∧ j < pages.length) ↔ (j ∈ order ∧ j < pages.length) := by
            constructor
            · rintro ⟨hm, hl⟩
              rcases List.mem_cons.mp hm with hx | hx
              · exact absurd hx h3
              · exact ⟨hx, hl⟩
            · rintro ⟨hm, hl⟩
              exact ⟨List.mem_cons_of_mem i hm, hl⟩
          rw [if_neg (fun hc => h1 (h2.mp hc)), List.get?_set_ne _ _ (fun hc => h3 hc.symm)]

/-- Whatever order the workers complete in, as long as every task completes,
the collected output is the per-page recognition in page order. -/
theorem execPool_eq_map {α β : Type _} (ocr : α → β) (pages : List α) (order : List Nat)
    (h : ∀ j, j < pages.length → j ∈ order) :
    execPool ocr pages order = pages.map (fun p => some (ocr p)) := by
  apply List.ext_get?_iff.mpr
  intro j
  unfold execPool
  rw [execPool_fold_get ocr pages order (List.replicate pages.length none) j
    (List.length_replicate _ _)]
  by_cases hj : j < pages.length
  · rw [if_pos ⟨h j hj, hj⟩]
    rcases List.get?_eq_get hj with h5
    rw [List.get?_map, h5]
    rfl
  · rw [if_neg (fun hc => hj hc.2)]
    have h1 : pages.get? j = none := List.get?_eq_none.mpr (le_of_not_lt hj)
    have h2 : (List.replicate pages.length (none : Option β)).get? j = none :=
      List.get?_eq_none.mpr (by rw [List.length_replicate]; omega)
    rw [h2, List.get?_map, h1]
    rfl

/-- C1: the claim that every exit path of process_pdf_multiprocess removes the
temporary PDF exactly once fails on the code: the finally-block holding
os.remove belongs only to the S3-upload try (lines 119-136), so the early
returns of the rasterization/recognition except-branches (lines 98-109) leak
the file.  Evaluated below: a run whose convert_from_path raises
PDFPageCountError (corrupt PDF) with the temp file present ends failed with
zero removals, while a run that reaches the upload stage removes it once. -/
theorem temp_pdf_leak_on_stage1_failure :
    (process_pdf_multiprocess
      ⟨Except.error PdfError.pdfPageCount, fun p => Except.ok p, true, true, fun _ _ => 0⟩
      "/tmp/tmpabc.pdf" "event.pdf").removes = 0 ∧
    (process_pdf_multiprocess
      ⟨Except.error PdfError.pdfPageCount, fun p => Except.ok p, true, true, fun _ _ => 0⟩
      "/tmp/tmpabc.pdf" "event.pdf").statusWrites
        = [FileStatus.processing, FileStatus.failed] ∧
    (process_pdf_multiprocess
      ⟨Except.ok ["page1.jpg"], fun p => Except.ok p, true, true, fun _ _ => 0⟩
      "/tmp/tmpabc.pdf" "event.pdf").removes = 1 := by
  refine ⟨rfl, rfl, rfl⟩

/-- C2 counterexample: a run whose upload succeeds sets the status to done,
yet a subsequent result lookup finds nothing — the source never places the
Extraction Result in any process-wide registry (file_status stores only
status strings), so get_result cannot retrieve it. -/
theorem no_result_registry_counterexample :
    (process_pdf_multiprocess
      ⟨Except.ok ["Capacity: 5000 persons"], fun p => Except.ok p, true, true, fun _ _ => 0⟩
      "/tmp/t.pdf" "event.pdf").statusWrites
        = [FileStatus.processing, FileStatus.done] ∧
    get_result (process_pdf_multiprocess
      ⟨Except.ok ["Capacity: 5000 persons"], fun p => Except.ok p, true, true, fun _ _ => 0⟩
      "/tmp/t.pdf" "event.pdf") "event.pdf" = none := by
  refine ⟨rfl, rfl⟩

/-- C2 (amended): for every pipeline run whose stages succeed and whose
storage upload succeeds, the status for the filename is set to done and the
serialized Extraction Result is uploaded to durable storage under the derived
key; the process keeps no in-memory result registry, so get_result returns
not-found even after success. -/
theorem upload_success_sets_done_no_registry (env : PipelineEnv)
    (pdf_path filename : String) (pages : List (List (String × String)))
    (h1 : pipelineStage1 env = Except.ok pages)
    (h2 : env.uploadOk = true) :
    (process_pdf_multiprocess env pdf_path filename).statusWrites
        = [FileStatus.processing, FileStatus.done] ∧
    (process_pdf_multiprocess env pdf_path filename).uploaded
        = some ((splitext filename).1 ++ ".json", serializeResult ⟨filename, pages⟩) ∧
    get_result (process_pdf_multiprocess env pdf_path filename) filename = none := by
  unfold process_pdf_multiprocess
  rw [h1]
  simp only [h2, if_true]
  refine ⟨?_, ?_, ?_⟩ <;> trivial

/-- Witness for the amended C2: a one-page run whose upload succeeds. -/
theorem upload_success_sets_done_no_registry_witness :
    (process_pdf_multiprocess
      ⟨Except.ok ["Capacity: 5000 persons"], fun p => Except.ok p, true, true, fun _ _ => 0⟩
      "/tmp/t.pdf" "event.pdf").statusWrites
        = [FileStatus.processing, FileStatus.done] ∧
    (process_pdf_multiprocess
      ⟨Except.ok ["Capacity: 5000 persons"], fun p => Except.ok p, true, true, fun _ _ => 0⟩
      "/tmp/t.pdf" "event.pdf").uploaded
        = some ((splitext "event.pdf").1 ++ ".json", serializeResult ⟨"event.pdf", [[]]⟩) ∧
    get_result (process_pdf_multiprocess
      ⟨Except.ok ["Capacity: 5000 persons"], fun p => Except.ok p, true, true, fun _ _ => 0⟩
      "/tmp/t.pdf" "event.pdf") "event.pdf" = none :=
  upload_success_sets_done_no_registry
    ⟨Except.ok ["Capacity: 5000 persons"], fun p => Except.ok p, true, true, fun _ _ => 0⟩
    "/tmp/t.pdf" "event.pdf" [[]] rfl rfl

/-- C3: for every worker-pool size of at least one, the Parallel Recognition
Stage yields one text per page with index correspondence preserved, equals the
degenerate sequential run, and is independent of the order in which the
workers complete their tasks. -/
theorem parallel_recognition_ordered {α β : Type} (max_workers : Nat)
    (hw : 1 ≤ max_workers) (ocr : α → β) (pages : List α) :
    (parallel_recognition max_workers ocr pages).length = pages.length ∧
    (∀ i, i < pages.length →
      (parallel_recognition max_workers ocr pages).get? i = (pages.get? i).map ocr) ∧
    parallel_recognition max_workers ocr pages = parallel_recognition 1 ocr pages ∧
    (∀ order : List Nat, order.Perm (List.range pages.length) →
      execPool ocr pages order
        = (parallel_recognition max_workers ocr pages).map (fun t => some t)) := by
  refine ⟨List.length_map _ _, ?_, rfl, ?_⟩
  · intro i hi
    unfold parallel_recognition
    rw [List.get?_map]
  · intro order hperm
    rw [execPool_eq_map ocr pages order
      (fun j hj => hperm.mem_iff.mpr (List.mem_range.mpr hj))]
    unfold parallel_recognition
    rw [List.map_map]
    rfl

/-- Witness for C3 at pool size two, two pages, and a completion order that
finishes the second page first. -/
theorem parallel_recognition_ordered_witness :
    parallel_recognition 2 (fun s => s ++ "!") ["a", "b"]
      = parallel_recognition 1 (fun s => s ++ "!") ["a", "b"] ∧
    execPool (fun s => s ++ "!") ["a", "b"] [1, 0]
      = (parallel_recognition 2 (fun s => s ++ "!") ["a", "b"]).map (fun t => some t) := by
  have h := parallel_recognition_ordered 2 (by decide) (fun s => s ++ "!") ["a", "b"]
  exact ⟨h.2.2.1, h.2.2.2 [1, 0] (by decide)⟩

/-- C4: when a keyword is matched (at or above the threshold) by an earlier
line L1 and by a later line L2, and no line after L2 matches, the extraction
records the stripped text of L2, the last matching line in scan order —
independent of which line scored higher. -/
theorem extract_last_match_wins (score : String → String → Nat) (text : String)
    (keywords : List String) (T : Nat) (k L1 L2 : String) (pre suf : List String)
    (hk : k ∈ keywords)
    (hsplit : pySplit text = pre ++ L2 :: suf)
    (hL1 : L1 ∈ pre)
    (hs1 : T ≤ score (pyLower k) (pyLower L1))
    (hs2 : T ≤ score (pyLower k) (pyLower L2))
    (hafter : ∀ l ∈ suf, score (pyLower k) (pyLower l) < T) :
    (extract_keywords_from_text score text keywords T).lookup k
      = some (pyStrip L2) := by
  rw [extract_lookup_eq, if_pos hk, hsplit, List.foldl_append, List.foldl_cons]
  simp only [hs2, if_true]
  exact lastMatch_fold_of_none score T k suf _ hafter

/-- Witness for C4: both lines match the keyword at the threshold, and the
later line is the recorded one. -/
theorem extract_last_match_wins_witness :
    (extract_keywords_from_text (fun _ _ => 70) "Capacity: 1\nCapacity: 2"
      ["Capacity"] 70).lookup "Capacity" = some "Capacity: 2" := by
  have h := extract_last_match_wins (fun _ _ => 70) "Capacity: 1\nCapacity: 2"
    ["Capacity"] 70 "Capacity" "Capacity: 1" "Capacity: 2" ["Capacity: 1"] []
    (by decide) (by decide) (by decide) (by decide) (by decide) (by decide)
  simpa using h

/-- C5: a keyword of the list appears as a key of the extraction exactly when
some line scores at or above the threshold against it (the comparison is
inclusive), case-insensitively; keywords that never reach the threshold are
absent — there is no placeholder entry. -/
theorem extract_key_iff_threshold (score : String → String → Nat) (text : String)
    (keywords : List String) (T : Nat) (k : String) (hk : k ∈ keywords) :
    k ∈ (extract_keywords_from_text score text keywords T).map Prod.fst
      ↔ ∃ line ∈ pySplit text, T ≤ score (pyLower k) (pyLower line) := by
  have h1 := lookup_eq_none_iff (extract_keywords_from_text score text keywords T) k
  have h2 := extract_lookup_eq score text keywords T k
  rw [if_pos hk] at h2
  constructor
  · intro hmem
    have hne : (extract_keywords_from_text score text keywords T).lookup k ≠ none :=
      fun hn => (h1.mp hn) hmem
    rw [h2] at hne
    by_contra hex
    push_neg at hex
    exact hne ((lastMatch_fold_eq_none_iff score T k (pySplit text) none).mpr
      ⟨rfl, fun l hl => Nat.not_le.mpr (hex l hl)⟩)
  · rintro ⟨line, hline, hsc⟩
    by_contra hmem
    have hnone : (extract_keywords_from_text score text keywords T).lookup k = none :=
      h1.mpr hmem
    rw [h2] at hnone
    rcases (lastMatch_fold_eq_none_iff score T k (pySplit text) none).mp hnone with ⟨-, hall⟩
    exact hall line hline hsc

/-- Witness for C5: a line scoring exactly the threshold is matched (the
threshold comparison is inclusive). -/
theorem extract_key_iff_threshold_witness :
    "Capacity" ∈ (extract_keywords_from_text (fun _ _ => 70) "Capacity: 5000"
      ["Capacity"] 70).map Prod.fst := by
  have h := extract_key_iff_threshold (fun _ _ => 70) "Capacity: 5000"
    ["Capacity"] 70 "Capacity" (by decide)
  exact h.mpr ⟨"Capacity: 5000", by decide, by decide⟩

/-- C6: within one run of process_pdf_multiprocess the writes to
file_status[filename] are exactly the initial processing followed by one
terminal write (done or failed); once the terminal status is written, no later
step of the run writes that filename again. -/
theorem status_monotonic_per_run (env : PipelineEnv) (pdf_path filename : String) :
    (process_pdf_multiprocess env pdf_path filename).statusWrites
        = [FileStatus.processing, FileStatus.done] ∨
    (process_pdf_multiprocess env pdf_path filename).statusWrites
        = [FileStatus.processing, FileStatus.failed] := by
  unfold process_pdf_multiprocess
  cases pipelineStage1 env with
  | error e => right; rfl
  | ok pages =>
      by_cases h : env.uploadOk
      · left; simp [h]
      · right; simp [h]

/-- C7: the upload endpoint rejects any filename that does not end in ".pdf"
case-insensitively with a 400 before anything is scheduled or recorded, and
for an accepted upload whose payload is saved it returns at once with the
accepted filename and schedules exactly one background pipeline run; the
handler itself writes no status entry in either case. -/
theorem upload_validation (env : UploadEnv) (filename : String) :
    (pyEndsWith (pyLower filename) ".pdf" = false →
      (upload env filename).response
          = Except.error (HTTPError.badRequest "Only PDF files are allowed.") ∧
      (upload env filename).scheduled = [] ∧
      (upload env filename).statusWrites = []) ∧
    (pyEndsWith (pyLower filename) ".pdf" = true → env.saveOk = true →
      (upload env filename).response
          = Except.ok ("File is being processed in background", filename) ∧
      (upload env filename).scheduled = [(env.tmpName, filename)] ∧
      (upload env filename).statusWrites = []) := by
  constructor
  · intro h
    unfold upload
    rw [if_pos h]
    exact ⟨rfl, rfl, rfl⟩
  · intro h1 h2
    unfold upload
    rw [if_neg (by rw [h1]; exact fun hc => Bool.noConfusion hc),
        if_neg (by rw [h2]; exact fun hc => Bool.noConfusion hc)]
    exact ⟨rfl, rfl, rfl⟩

/-- Witness for C7: a text file is rejected with no scheduled pipeline; an
upper-case .PDF name is accepted and scheduled. -/
theorem upload_validation_witness :
    (upload ⟨true, "/tmp/tmp1.pdf"⟩ "notes.txt").response
        = Except.error (HTTPError.badRequest "Only PDF files are allowed.") ∧
    (upload ⟨true, "/tmp/tmp1.pdf"⟩ "notes.txt").scheduled = [] ∧
    (upload ⟨true, "/tmp/tmp1.pdf"⟩ "Event.PDF").response
        = Except.ok ("File is being processed in background", "Event.PDF") ∧
    (upload ⟨true, "/tmp/tmp1.pdf"⟩ "Event.PDF").scheduled
        = [("/tmp/tmp1.pdf", "Event.PDF")] := by
  have h1 := (upload_validation ⟨true, "/tmp/tmp1.pdf"⟩ "notes.txt").1 (by decide)
  have h2 := (upload_validation ⟨true, "/tmp/tmp1.pdf"⟩ "Event.PDF").2 (by decide) rfl
  exact ⟨h1.1, h1.2.1, h2.1, h2.2.1⟩

/-- C8: a successful run uploads under the key obtained from the filename by
replacing its extension with ".json" (same base name), and the uploaded body
is the canonical serialization of the Extraction Result — filename field
first, then the pages in order — from which deserialization recovers the
result intact. -/
theorem upload_key_and_serialization (env : PipelineEnv) (pdf_path : String)
    (stem : String) (tail : List Char) (pages : List (List (String × String)))
    (h1 : pipelineStage1 env = Except.ok pages)
    (h2 : env.uploadOk = true)
    (hsep : '/' ∉ stem.data) (hnd : ∃ c ∈ stem.data, c ≠ '.')
    (hnd2 : '.' ∉ tail) (hns2 : '/' ∉ tail) :
    (process_pdf_multiprocess env pdf_path (stem ++ ⟨'.' :: tail⟩)).uploaded
      = some (stem ++ ".json", serializeResult ⟨stem ++ ⟨'.' :: tail⟩, pages⟩) ∧
    deserializeResult (serializeResult ⟨stem ++ ⟨'.' :: tail⟩, pages⟩)
      = some ⟨stem ++ ⟨'.' :: tail⟩, pages⟩ := by
  constructor
  · unfold process_pdf_multiprocess
    rw [h1]
    simp only [h2, if_true]
    rw [splitext_append stem tail hsep hnd hnd2 hns2]
  · exact deserialize_serialize _

/-- Witness for C8: a one-page successful run of "event.pdf". -/
theorem upload_key_and_serialization_witness :
    (process_pdf_multiprocess
      ⟨Except.ok ["x"], fun p => Except.ok p, true, true, fun _ _ => 0⟩
      "/tmp/t.pdf" ("event" ++ ⟨'.' :: ['p', 'd', 'f']⟩)).uploaded
      = some ("event" ++ ".json",
          serializeResult ⟨"event" ++ ⟨'.' :: ['p', 'd', 'f']⟩, [[]]⟩) ∧
    deserializeResult (serializeResult ⟨"event" ++ ⟨'.' :: ['p', 'd', 'f']⟩, [[]]⟩)
      = some ⟨"event" ++ ⟨'.' :: ['p', 'd', 'f']⟩, [[]]⟩ :=
  upload_key_and_serialization
    ⟨Except.ok ["x"], fun p => Except.ok p, true, true, fun _ _ => 0⟩
    "/tmp/t.pdf" "event" ['p', 'd', 'f'] [[]] rfl rfl (by decide)
    ⟨'e', by decide, by decide⟩ (by decide) (by decide)

/-- C9: serializing an Extraction Result to the canonical byte encoding and
deserializing yields an equal structure — same filename, same page order,
same per-page keyword-to-line mappings. -/
theorem serializeResult_roundtrip (r : ExtractionResult) :
    deserializeResult (serializeResult r) = some r :=
  deserialize_serialize r

/-- C10: every key of the extraction is a keyword of the supplied list and
every value is the whitespace-stripped content of some line of the input; on
empty text (whose scores against nonempty keywords fall below the threshold,
as rapidfuzz guarantees) the result is the empty mapping; and one line may
simultaneously be the recorded match of several keywords. -/
theorem extract_wellformed (score : String → String → Nat) (text : String)
    (keywords : List String) (T : Nat) :
    (∀ k v, (k, v) ∈ extract_keywords_from_text score text keywords T →
      k ∈ keywords ∧ ∃ l ∈ pySplit text, v = pyStrip l) ∧
    ((∀ k ∈ keywords, score (pyLower k) "" < T) →
      extract_keywords_from_text score "" keywords T = []) ∧
    extract_keywords_from_text (fun _ _ => 100) "Capacity: 5000"
        ["Capacity", "Parking Capacity"] 70
      = [("Capacity", "Capacity: 5000"), ("Parking Capacity", "Capacity: 5000")] := by
  refine ⟨?_, ?_, by decide⟩
  · intro k v h
    exact extract_mem score text keywords T k v h
  · intro h
    exact extract_empty_text score keywords T h

/-- Witness for C10: a concrete entry is traced back to its keyword and line,
and the empty text yields the empty mapping under a scorer below the
threshold. -/
theorem extract_wellformed_witness :
    ("Capacity" ∈ ["Capacity"] ∧
      ∃ l ∈ pySplit "Capacity: 5000", "Capacity: 5000" = pyStrip l) ∧
    extract_keywords_from_text (fun _ _ => 0) "" ["Capacity"] 70 = [] := by
  constructor
  · exact (extract_wellformed (fun _ _ => 100) "Capacity: 5000" ["Capacity"] 70).1
      "Capacity" "Capacity: 5000" (by decide)
  · exact (extract_wellformed (fun _ _ => 0) "" ["Capacity"] 70).2.1 (by decide)

end FileExtraction
